import Mathlib

/-!
Verification of the shadow-drop commitment-and-claim core against its
specification.  The TypeScript sources under `src/ui` and the SQL migration
under `src/backend` are embedded shallowly: JS strings become `List Char`
(or `String`), `Uint8Array` values become `List Nat` of byte values,
fallible flows become `Except`, and the external `web3.js` PDA derivation is
embedded by its seed/program preimage.  The file `src/ui/src/lib/merkle.ts`
(imported by `pda.ts`) is not part of the sources; the commitment builder it
provides is modelled from the specification (sections 4.1 and 7) where a
claim depends on it, and the corresponding definitions say so in their doc
comments.
-/

/-! ## Hex primitives (light.ts `nullifierFromHex`, useShadowDrop.ts
`hexToBytes`, noirjs `bytesToHex`, Dashboard.tsx `handleClaim` local
`hexToBytes`) -/

/-- Value of a hexadecimal digit character, as `parseInt(-, 16)` accepts
them: `0-9`, `a-f`, `A-F`. -/
def hexDigitVal? (c : Char) : Option Nat :=
  if '0' ≤ c ∧ c ≤ '9' then some (c.toNat - '0'.toNat)
  else if 'a' ≤ c ∧ c ≤ 'f' then some (c.toNat - 'a'.toNat + 10)
  else if 'A' ≤ c ∧ c ≤ 'F' then some (c.toNat - 'A'.toNat + 10)
  else none

/-- Accumulating loop of the hexadecimal `parseInt`: consume hex digits
until a non-digit appears. -/
def parseHexAcc (acc : Nat) : List Char → Nat
  | [] => acc
  | c :: t =>
    match hexDigitVal? c with
    | none => acc
    | some v => parseHexAcc (acc * 16 + v) t

/-- JavaScript `parseInt(s, 16)` on the short slices fed by the code at
hand: `none` models `NaN` (no leading hex digit, in particular the empty
slice past the end of the string).  Whitespace, sign and `0x` handling of
full `parseInt` cannot arise on these 2-character slices of hex strings. -/
def parseIntHexValue? (s : List Char) : Option Nat :=
  match s with
  | [] => none
  | c :: t =>
    match hexDigitVal? c with
    | none => none
    | some v => some (parseHexAcc v t)

/-- Storing a `parseInt` result into a `Uint8Array` cell: `NaN` stores 0,
a number stores its value modulo 256. -/
def jsUint8OfParse (o : Option Nat) : Nat :=
  match o with
  | none => 0
  | some v => v % 256

/-- The `hex.startsWith('0x') ? hex.slice(2) : hex` normalisation. -/
def strip0x (hex : List Char) : List Char :=
  if hex.take 2 = ['0', 'x'] then hex.drop 2 else hex

/-- light.ts `nullifierFromHex`: allocates `Uint8Array(32)` and fills cell
`i` with `parseInt(cleanHex.slice(2*i, 2*i+2), 16)`. -/
def nullifierFromHex (hex : List Char) : List Nat :=
  let cleanHex := strip0x hex
  (List.range 32).map fun i =>
    jsUint8OfParse (parseIntHexValue? ((cleanHex.drop (2 * i)).take 2))

/-- useShadowDrop.ts `hexToBytes`: identical loop over a fixed
`Uint8Array(32)`, without the `0x` normalisation. -/
def hexToBytes32 (hex : List Char) : List Nat :=
  (List.range 32).map fun i =>
    jsUint8OfParse (parseIntHexValue? ((hex.drop (2 * i)).take 2))

/-- Dashboard.tsx `handleClaim` local `hexToBytes`: the array length is
`cleanHex.length / 2`, so the byte count tracks the input length instead of
being fixed.  (On an odd-length string the JS constructor would throw; the
claims are settled on even-length inputs.) -/
def claimHexToBytes (hex : List Char) : List Nat :=
  let cleanHex := strip0x hex
  (List.range (cleanHex.length / 2)).map fun i =>
    jsUint8OfParse (parseIntHexValue? ((cleanHex.drop (2 * i)).take 2))

/-- The lowercase hex alphabet used by `Number.prototype.toString(16)`. -/
def hexAlphabet : List Char := "0123456789abcdef".data

/-- Hex digit character of a value below 16. -/
def hexCharOf (n : Nat) : Char := hexAlphabet.getD n '0'

/-- One byte rendered by `b.toString(16).padStart(2, "0")` (noirjs
`bytesToHex`): one digit padded with a leading zero, or two digits. -/
def toHexByte (b : Nat) : List Char :=
  if b < 16 then ['0', hexCharOf b] else [hexCharOf (b / 16), hexCharOf (b % 16)]

/-- noirjs `bytesToHex`: concatenation of the two-character renderings. -/
def bytesToHex (bs : List Nat) : List Char :=
  bs.foldr (fun b acc => toHexByte b ++ acc) []

/-! ## Claim submission flow (Dashboard.tsx `handleClaim`) -/

/-- The prover response fields that `handleClaim` decodes and forwards
(`ZkProofResponse` in api.ts: hex blobs and the claim amount). -/
structure ZkProofData where
  groth16_proof : List Char
  public_inputs : List Char
  nullifier : List Char
  amount : Nat
deriving DecidableEq

/-- Local validation errors of the error taxonomy in the specification. -/
inductive ClaimError
  | malformedProof
deriving DecidableEq

/-- The two ledger claim instructions `handleClaim` can issue. -/
inductive ClaimInstr
  | claimToken (amount : Nat)
  | claimZkSimple (proof publicInputs nullifier : List Nat) (amount : Nat)
deriving DecidableEq

/-- Outcome of the proof-data handling step of `handleClaim`: either a
ledger instruction is issued or the claim is rejected locally.  The local
rejection alternative exists so the specification claim can be stated; the
code below never produces it. -/
inductive ClaimOutcome
  | submitInstr (i : ClaimInstr)
  | rejectLocal (e : ClaimError)
deriving DecidableEq

/-- Dashboard.tsx `handleClaim`, lines 1560-1646: the proof blob, the
public-input blob and the nullifier are converted with the local
`hexToBytes` (whose output length is half the hex length) and passed
directly to `claimZkSimple` (or, for a token campaign, `claimToken` with
just the amount); the byte lengths are only logged, never checked. -/
def buildClaimInstruction (tokenMint : Option String) (d : ZkProofData) : ClaimOutcome :=
  match tokenMint with
  | some _ => .submitInstr (.claimToken d.amount)
  | none =>
    .submitInstr (.claimZkSimple (claimHexToBytes d.groth16_proof)
      (claimHexToBytes d.public_inputs) (claimHexToBytes d.nullifier) d.amount)

/-! ## Claim error classification (Dashboard.tsx `handleClaim` catch) -/

/-- Matching of a pattern against the head of a character list. -/
def leadMatch : List Char → List Char → Bool
  | [], _ => true
  | _ :: _, [] => false
  | p :: ps, h :: hs => p = h && leadMatch ps hs

/-- JavaScript `hay.includes(pat)`: the pattern occurs as a contiguous
substring. -/
def containsSub (hay pat : List Char) : Bool :=
  match hay with
  | [] => pat.isEmpty
  | _ :: t => leadMatch pat hay || containsSub t pat

/-- Severity of the toast surfaced by the catch handler. -/
inductive Severity
  | info
  | warning
  | errorToast
deriving DecidableEq

/-- What the catch handler does: which toast it shows and whether it
removes the campaign from the eligible list. -/
structure CatchResult where
  severity : Severity
  removedFromEligible : Bool
deriving DecidableEq

/-- Dashboard.tsx lines 1660-1672: the if/else chain over
`error.toString()`.  Only the already-claimed branch removes the campaign
from the eligible list, and it shows a warning toast, not an error toast. -/
def classifyClaimError (e : List Char) : CatchResult :=
  if containsSub e "User rejected".data then ⟨.info, false⟩
  else if containsSub e "already been processed".data || containsSub e "AlreadyClaimed".data then
    ⟨.warning, true⟩
  else if containsSub e "Failed to generate proof".data then ⟨.errorToast, false⟩
  else ⟨.errorToast, false⟩

/-- The already-claimed markers the catch handler looks for. -/
def isAlreadyClaimedError (e : List Char) : Bool :=
  containsSub e "already been processed".data || containsSub e "AlreadyClaimed".data

/-! ## Claim flow event order (Dashboard.tsx `handleClaim`, lines
1538-1677) -/

/-- Observable steps of one `handleClaim` run, in program order. -/
inductive ClaimEvent
  | generateProofCall
  | submitLedgerCall
  | markClaimedCall
  | removeFromEligibleEv
  | setSuccessEv
  | toastEv (s : Severity)
deriving DecidableEq

/-- Events produced by the catch handler for a thrown error message. -/
def catchEvents (e : List Char) : List ClaimEvent :=
  let c := classifyClaimError e
  .toastEv c.severity :: (if c.removedFromEligible then [.removeFromEligibleEv] else [])

/-- Event trace of `handleClaim`, parameterised by the outcome of the
proof-generation request and of the ledger `.rpc()` call (the two awaited
fallible steps).  On success the code marks the off-chain store claimed,
removes the campaign from the eligible list and sets the success flag, in
that order; any throw jumps to the catch handler. -/
def handleClaimEvents (proofRes : Except (List Char) ZkProofData)
    (ledgerRes : Except (List Char) String) : List ClaimEvent :=
  match proofRes with
  | .error e => .generateProofCall :: catchEvents e
  | .ok _ =>
    match ledgerRes with
    | .error e => .generateProofCall :: .submitLedgerCall :: catchEvents e
    | .ok _ =>
      [.generateProofCall, .submitLedgerCall, .markClaimedCall,
       .removeFromEligibleEv, .setSuccessEv]

/-! ## Public keys and program-derived addresses (pda.ts, light.ts,
useShadowDrop.ts) -/

/-- A Solana public key as the code handles it: either a key given by its
base58 rendering (wallets, program ids, external constants), or a
program-derived address.  `web3.js` `findProgramAddressSync` is a sha256
based one-way derivation; it is embedded by its preimage (seed list and
program), which is what the specification claims about derivation seeds
speak about. -/
inductive PublicKey
  | ofBase58 (s : String)
  | pda (seeds : List (List Nat)) (program : PublicKey)
deriving DecidableEq

/-- Bytes of a string under `Buffer.from` (all seeds used here are ASCII,
where UTF-8 bytes coincide with code points). -/
def utf8Bytes (s : String) : List Nat := s.data.map Char.toNat

/-- The 32 raw bytes of a key (`toBuffer`), embedded injectively: an
explicit tag plus, for a derived address, a length-prefixed flattening of
its seeds standing in for the sha256 image. -/
def PublicKey.toBuffer : PublicKey → List Nat
  | .ofBase58 s => 0 :: utf8Bytes s
  | .pda seeds program =>
    1 :: seeds.foldr (fun x acc => x.length :: x ++ acc) (2 :: program.toBuffer)

/-- Base58 rendering (`toBase58`); for a derived address a deterministic
rendering of its embedded bytes. -/
def PublicKey.toBase58 : PublicKey → String
  | .ofBase58 s => s
  | .pda seeds program =>
    String.mk ((PublicKey.toBuffer (.pda seeds program)).map fun b => Char.ofNat (b % 256))

/-- `PublicKey.findProgramAddressSync(seeds, programId)`, embedded as the
derived-address value plus the canonical bump placeholder. -/
def findProgramAddress (seeds : List (List Nat)) (programId : PublicKey) : PublicKey × Nat :=
  (.pda seeds programId, 255)

/-- pda.ts `PROGRAM_ID` (a literal base58 constant). -/
def pdaProgramId : PublicKey :=
  .ofBase58 "7wjDqUQUpnudD25MELXBiayNiMrStXaKAdrLMwzccu7v"

/-- useShadowDrop.ts `PROGRAM_ID`: the `VITE_PROGRAM_ID` environment value
if set, otherwise the same hardcoded fallback literal as pda.ts. -/
def useShadowDropProgramId (env : Option String) : PublicKey :=
  .ofBase58 (env.getD "7wjDqUQUpnudD25MELXBiayNiMrStXaKAdrLMwzccu7v")

/-- pda.ts `deriveCampaignPDA`. -/
def deriveCampaignPDA (authority : PublicKey) (campaignId : String) : PublicKey × Nat :=
  findProgramAddress [utf8Bytes "campaign", authority.toBuffer, utf8Bytes campaignId] pdaProgramId

/-- pda.ts `deriveVaultPDA`. -/
def deriveVaultPDA (authority : PublicKey) (campaignId : String) : PublicKey × Nat :=
  findProgramAddress [utf8Bytes "vault", authority.toBuffer, utf8Bytes campaignId] pdaProgramId

/-- pda.ts `deriveClaimRecordPDA`. -/
def deriveClaimRecordPDA (campaign claimer : PublicKey) : PublicKey × Nat :=
  findProgramAddress [utf8Bytes "claim", campaign.toBuffer, claimer.toBuffer] pdaProgramId

/-- pda.ts `deriveNullifierRecordPDA` (the nullifier seed is the raw
32-byte value). -/
def deriveNullifierRecordPDA (campaign : PublicKey) (nullifier : List Nat) : PublicKey × Nat :=
  findProgramAddress [utf8Bytes "nullifier", campaign.toBuffer, nullifier] pdaProgramId

/-- Dashboard.tsx `handleClaim`, lines 1598-1602: the in-line claim-record
derivation `findProgramAddressSync([Buffer.from("claim"), campaign, claimer],
program.programId)`. -/
def inlineClaimRecordPDA (programId : PublicKey) (campaign claimer : PublicKey) : PublicKey × Nat :=
  findProgramAddress [utf8Bytes "claim", campaign.toBuffer, claimer.toBuffer] programId

/-! ## Light Protocol packed accounts (light.ts) -/

/-- web3.js `AccountMeta`. -/
structure AccountMeta where
  pubkey : PublicKey
  isSigner : Bool
  isWritable : Bool
deriving DecidableEq

/-- External Light Protocol constants (`defaultStaticAccountsStruct`,
`LightSystemProgram.programId`, `PublicKey.default`): their values are
opaque library data; they are embedded as distinct named keys, which is all
the claims about account ordering use. -/
def lightSystemProgramId : PublicKey := .ofBase58 "LightSystemProgram"

def accountCompressionProgramId : PublicKey := .ofBase58 "AccountCompressionProgram"

def accountCompressionAuthorityId : PublicKey := .ofBase58 "AccountCompressionAuthority"

def registeredProgramPdaId : PublicKey := .ofBase58 "RegisteredProgramPda"

def noopProgramId : PublicKey := .ofBase58 "NoopProgram"

def systemProgramId : PublicKey := .ofBase58 "11111111111111111111111111111111"

/-- light.ts `getLightSystemAccountMetas`: the eight fixed system metas,
headed by the Light system program and the `cpi_authority` signer PDA. -/
def getLightSystemAccountMetas (selfProgram : PublicKey) : List AccountMeta :=
  let cpiSigner := (findProgramAddress [utf8Bytes "cpi_authority"] selfProgram).1
  [⟨lightSystemProgramId, false, false⟩,
   ⟨cpiSigner, false, false⟩,
   ⟨registeredProgramPdaId, false, false⟩,
   ⟨noopProgramId, false, false⟩,
   ⟨accountCompressionAuthorityId, false, false⟩,
   ⟨accountCompressionProgramId, false, false⟩,
   ⟨selfProgram, false, false⟩,
   ⟨systemProgramId, false, false⟩]

/-- light.ts `PackedAccounts` private state.  The JS `Map` keyed by
`pubkey.toBase58()` is embedded as an association list keyed by the key
itself: base58 rendering is injective on 32-byte keys, so the two keyings
agree. -/
structure PackedAccounts where
  systemAccounts : List AccountMeta
  packedAccounts : List AccountMeta
  accountMap : List (PublicKey × Nat)
  nextIndex : Nat
deriving DecidableEq

/-- Association list lookup in insertion order (JS `Map.get`). -/
def mapLookup : List (PublicKey × Nat) → PublicKey → Option Nat
  | [], _ => none
  | (k, v) :: t, p => if k = p then some v else mapLookup t p

/-- The `PackedAccounts` constructor. -/
def PackedAccounts.ofProgram (programId : PublicKey) : PackedAccounts :=
  ⟨getLightSystemAccountMetas programId, [], [], 0⟩

/-- light.ts `insertOrGet`: return the existing packed index, or append a
writable non-signer meta at the next index. -/
def PackedAccounts.insertOrGet (s : PackedAccounts) (pubkey : PublicKey) : Nat × PackedAccounts :=
  match mapLookup s.accountMap pubkey with
  | some i => (i, s)
  | none =>
    (s.nextIndex,
     { s with
        accountMap := s.accountMap ++ [(pubkey, s.nextIndex)]
        packedAccounts := s.packedAccounts ++ [⟨pubkey, false, true⟩]
        nextIndex := s.nextIndex + 1 })

/-- light.ts `toAccountMetas`: system metas first, then packed metas, with
`packedStart` the count of system metas. -/
def PackedAccounts.toAccountMetas (s : PackedAccounts) : List AccountMeta × Nat :=
  (s.systemAccounts ++ s.packedAccounts, s.systemAccounts.length)

/-- A whole sequence of `insertOrGet` calls (return values dropped). -/
def runInserts (s : PackedAccounts) : List PublicKey → PackedAccounts
  | [] => s
  | p :: t => runInserts (s.insertOrGet p).2 t

/-- State of a fresh `PackedAccounts` after a call sequence. -/
def packedAfter (programId : PublicKey) (ps : List PublicKey) : PackedAccounts :=
  runInserts (PackedAccounts.ofProgram programId) ps

/-- Keys paired with consecutive indices starting at `k`. -/
def withIdx : List PublicKey → Nat → List (PublicKey × Nat)
  | [], _ => []
  | p :: t, k => (p, k) :: withIdx t (k + 1)

/-- First-occurrence subsequence accumulation. -/
def distinctsGo (acc : List PublicKey) : List PublicKey → List PublicKey
  | [] => acc
  | p :: t => if p ∈ acc then distinctsGo acc t else distinctsGo (acc ++ [p]) t

/-- The distinct pubkeys of a call sequence in first-insertion order. -/
def firstOccurrences (ps : List PublicKey) : List PublicKey := distinctsGo [] ps

/-! ## Commitment builder (pda.ts `generateMerkleRoot`; the merkle.ts it
imports is not among the sources and is modelled from the specification) -/

/-- The scalar field modulus of the proving system arithmetic (BN254, the
Poseidon domain named by pda.ts). -/
def SCALAR_MODULUS : Nat :=
  21888242871839275222246405745257275088548364400416034343698204186575808495617

/-- The base58 alphabet used by Solana addresses. -/
def base58Alphabet : List Char :=
  "123456789ABCDEFGHJKLMNPQRSTUVWXYZabcdefghijkmnopqrstuvwxyz".data

/-- Digit value of one base58 character. -/
def base58DigitVal? (c : Char) : Option Nat :=
  base58Alphabet.findIdx? (fun d => d = c)

/-- Numeric value of a base58 address string (none on a character outside
the alphabet). -/
def base58DecodeNat? (s : String) : Option Nat :=
  s.data.foldl
    (fun acc c => acc.bind fun v => (base58DigitVal? c).map fun d => v * 58 + d)
    (some 0)

/-- Modelled from the spec: the mapping of a wallet address into the hash
field required by section 4.1 — the address value must fit below the field
modulus, otherwise the commitment builder fails with `HashDomainError`
(spec sections 4.1 Failure and 7; the implementing merkle.ts is not under
the sources). -/
def addressAsField? (wallet : String) : Option Nat :=
  (base58DecodeNat? wallet).bind fun v =>
    if v < SCALAR_MODULUS then some v else none

/-- One entry of the recipient list as handleCreate builds it (wallet
string and amount in base units). -/
structure RecipientInput where
  wallet : String
  amount : Nat
deriving DecidableEq

/-- A recipient together with its generated secret. -/
structure RecipientWithSecret where
  wallet : String
  amount : Nat
  secret : Nat
deriving DecidableEq

/-- Failure modes of the commitment builder (spec section 7 taxonomy). -/
inductive CommitError
  | InvalidInput
  | HashDomainError
deriving DecidableEq

/-- Output of the tree build: the root field element and the (unpadded)
leaf hashes in input order. -/
structure MerkleOut where
  root : Nat
  leaves : List Nat
deriving DecidableEq

/-- The canonical zero-leaf padding sentinel (spec section 4.1 step 3). -/
def ZERO_LEAF : Nat := 0

/-- One level step: hash adjacent pairs left to right (spec section 4.1
step 4; the odd case cannot occur after power-of-two padding). -/
def pairUpLevel (nodeH : Nat → Nat → Nat) : List Nat → List Nat
  | a :: b :: t => nodeH a b :: pairUpLevel nodeH t
  | l => l

/-- Iterate the level step a fixed number of times. -/
def buildLevels (nodeH : Nat → Nat → Nat) : Nat → List Nat → List Nat
  | 0, l => l
  | k + 1, l => buildLevels nodeH k (pairUpLevel nodeH l)

/-- Pad the leaf level to the next power of two with the zero leaf. -/
def padPow2 (l : List Nat) : List Nat :=
  l ++ List.replicate (2 ^ Nat.clog 2 l.length - l.length) ZERO_LEAF

/-- Root of a padded leaf level, folding bottom up. -/
def merkleRootOfLeaves (nodeH : Nat → Nat → Nat) (leaves : List Nat) : Nat :=
  (buildLevels nodeH (Nat.clog 2 leaves.length) (padPow2 leaves)).headD ZERO_LEAF

/-- Leaf hashes of the recipient list, none as soon as one address does
not map into the field. -/
def leavesOf? (leafH : Nat → Nat → Nat → Nat) : List RecipientWithSecret → Option (List Nat)
  | [] => some []
  | r :: t =>
    match addressAsField? r.wallet, leavesOf? leafH t with
    | some a, some rest => some (leafH a r.amount r.secret :: rest)
    | _, _ => none

/-- Modelled from the spec: `buildMerkleTree` of the absent merkle.ts
(spec section 4.1): reject an empty list or a zero amount with
`InvalidInput` before any hashing, map addresses into the field
(`HashDomainError` on overflow), hash the leaves with the field-friendly
leaf hash, pad to a power of two and fold the levels.  The two hash
functions are parameters: nothing about the claims settled here depends on
the concrete Poseidon permutation. -/
def buildMerkleTree (leafH : Nat → Nat → Nat → Nat) (nodeH : Nat → Nat → Nat)
    (rs : List RecipientWithSecret) : Except CommitError MerkleOut :=
  if rs.isEmpty then .error .InvalidInput
  else if rs.any (fun r => r.amount = 0) then .error .InvalidInput
  else
    match leavesOf? leafH rs with
    | none => .error .HashDomainError
    | some leaves => .ok ⟨merkleRootOfLeaves nodeH leaves, leaves⟩

/-- Attach the generated secrets to the recipients in order (pda.ts
`generateMerkleRoot` maps `generateSecret()` over the list; the randomness
source is the `secretAt` parameter, one fresh field element per index). -/
def attachSecrets (secretAt : Nat → Nat) : Nat → List RecipientInput → List RecipientWithSecret
  | _, [] => []
  | i, r :: t => ⟨r.wallet, r.amount, secretAt i⟩ :: attachSecrets secretAt (i + 1) t

/-- pda.ts `generateMerkleRoot` up to byte serialisation: generate the
per-recipient secrets, build the tree, keep the whole output. -/
def generateMerkleRootFull (leafH : Nat → Nat → Nat → Nat) (nodeH : Nat → Nat → Nat)
    (secretAt : Nat → Nat) (recipients : List RecipientInput) : Except CommitError MerkleOut :=
  buildMerkleTree leafH nodeH (attachSecrets secretAt 0 recipients)

/-- Big-endian byte serialisation of a field element into `k` bytes. -/
def natToBytesBE (k : Nat) (v : Nat) : List Nat :=
  (List.range k).reverse.map fun i => v / 256 ^ i % 256

/-- pda.ts `generateMerkleRoot`: the 32 root bytes returned to
handleCreate. -/
def generateMerkleRoot (leafH : Nat → Nat → Nat → Nat) (nodeH : Nat → Nat → Nat)
    (secretAt : Nat → Nat) (recipients : List RecipientInput) : Except CommitError (List Nat) :=
  (generateMerkleRootFull leafH nodeH secretAt recipients).map fun o => natToBytesBE 32 o.root

/-! ## Campaign creation (Dashboard.tsx `handleCreate`, api.ts
`CreateCampaignRequest`) -/

/-- The SOL / SPL-token choice of the creation form. -/
inductive TokenType
  | sol
  | spl
deriving DecidableEq

/-- The vesting release frequency selector (Dashboard.tsx line 408). -/
inductive VestFreq
  | daily
  | weekly
  | monthly
deriving DecidableEq

/-- The state `handleCreate` reads, after the recipient text has been
parsed into `(wallet, base-unit amount)` pairs.  The cliff and duration day
fields are optional because the source applies `parseInt(x || "0")` and
`parseInt(x || "30")` defaults; `secretAt` is the randomness consumed by
`generateSecret`; `nowTs` is `Date.now()/1000`.  Display-unit arithmetic is
carried in `ℚ` (JS floating point is abstracted to exact rationals; none of
the claims settled here depends on float rounding). -/
structure CreateInputs where
  recipientList : List RecipientInput
  tokenAmount : ℚ
  vestingEnabled : Bool
  vestingCliffDays : Option Nat
  vestingDurationDays : Option Nat
  vestingFrequency : VestFreq
  tokenType : TokenType
  tokenMint : Option String
  tokenSymbol : Option String
  tokenDecimals : Nat
  campaignId : String
  campaignName : String
  creator : PublicKey
  txSig : String
  nowTs : Nat

/-- Arguments of the on-chain create instruction (`createCampaign` /
`createTokenCampaign`), Dashboard.tsx lines 697-744. -/
structure CreateCampaignArgs where
  campaignId : String
  merkleRoot : List Nat
  amountBaseUnits : Int
  vestingStartTs : Int
  vestingCliffSeconds : Int
  vestingDurationSeconds : Int
deriving DecidableEq

/-- The two create instruction shapes. -/
inductive CreateInstr
  | createCampaign (args : CreateCampaignArgs)
  | createTokenCampaign (args : CreateCampaignArgs) (mint : String)
deriving DecidableEq

/-- The vesting parameters as handleCreate computes them for the
instruction: zero when vesting is disabled, day counts times 86400
otherwise, and a zero start timestamp (0 = use the on-chain clock). -/
def onChainVesting (inp : CreateInputs) : Int × Int × Int :=
  (0,
   if inp.vestingEnabled then ((inp.vestingCliffDays.getD 0) * 86400 : Nat) else 0,
   if inp.vestingEnabled then ((inp.vestingDurationDays.getD 30) * 86400 : Nat) else 0)

/-- Dashboard.tsx lines 702-756: build the ledger create instruction.  For
a SOL campaign the amount is `Math.floor(amountToSend * LAMPORTS_PER_SOL)`;
for an SPL campaign it is `amountToSend * 10^decimals` and the mint is
attached. -/
def createInstruction (leafH : Nat → Nat → Nat → Nat) (nodeH : Nat → Nat → Nat)
    (secretAt : Nat → Nat) (inp : CreateInputs) : Except CommitError CreateInstr :=
  (generateMerkleRoot leafH nodeH secretAt inp.recipientList).map fun rootBytes =>
    let v := onChainVesting inp
    match inp.tokenType with
    | .sol =>
      .createCampaign
        ⟨inp.campaignId, rootBytes, ⌊inp.tokenAmount * 1000000000⌋, v.1, v.2.1, v.2.2⟩
    | .spl =>
      .createTokenCampaign
        ⟨inp.campaignId, rootBytes, ⌊inp.tokenAmount * (10 : ℚ) ^ inp.tokenDecimals⌋,
         v.1, v.2.1, v.2.2⟩
        (inp.tokenMint.getD "")

/-- api.ts `CreateCampaignRequest`: the creation-time artifact handed to
the off-chain store.  Its `recipients` field carries wallet and amount
only — the interface has no secret, leaf-index or path members. -/
structure CreateCampaignRequest where
  address : String
  name : String
  merkle_root : List Char
  total_amount : ℚ
  creator_wallet : String
  tx_signature : String
  vault_address : String
  recipients : List RecipientInput
  airdrop_type : String
  vesting_start : Nat
  vesting_cliff_seconds : Nat
  vesting_duration_seconds : Nat
  token_mint : Option String
  token_symbol : Option String
  token_decimals : Option Nat
deriving DecidableEq

/-- Dashboard.tsx lines 766-785: the body of the `createCampaign` POST.
Note that the backend vesting fields are not gated on `vestingEnabled`
(unlike the instruction arguments) and that `vesting_start` is the current
wall-clock time. -/
def buildCreateCampaignRequest (leafH : Nat → Nat → Nat → Nat) (nodeH : Nat → Nat → Nat)
    (secretAt : Nat → Nat) (inp : CreateInputs) : Except CommitError CreateCampaignRequest :=
  (generateMerkleRoot leafH nodeH secretAt inp.recipientList).map fun rootBytes =>
    { address := ((deriveCampaignPDA inp.creator inp.campaignId).1).toBase58
      name := inp.campaignName
      merkle_root := bytesToHex rootBytes
      total_amount := inp.tokenAmount
      creator_wallet := inp.creator.toBase58
      tx_signature := inp.txSig
      vault_address := ((deriveVaultPDA inp.creator inp.campaignId).1).toBase58
      recipients := inp.recipientList
      airdrop_type := if inp.vestingEnabled then "vested" else "instant"
      vesting_start := inp.nowTs
      vesting_cliff_seconds := (inp.vestingCliffDays.getD 0) * 86400
      vesting_duration_seconds := (inp.vestingDurationDays.getD 30) * 86400
      token_mint := if inp.tokenType = .spl then inp.tokenMint else none
      token_symbol := if inp.tokenType = .spl then inp.tokenSymbol else none
      token_decimals := if inp.tokenType = .spl then some inp.tokenDecimals else none }

/-! ## Backend recipients table (migrations/20240201220000_init.sql) -/

/-- A row of the `recipients` table (identity column and claim flags
omitted; they default on insert). -/
structure RecipientRow where
  campaign_address : String
  wallet : String
  amount : Nat
deriving DecidableEq

/-- SQL errors surfaced by an insert. -/
inductive SqlError
  | uniqueViolation
deriving DecidableEq

/-- One `INSERT` into `recipients` under the declared
`UNIQUE(campaign_address, wallet)` constraint. -/
def recipientsInsert (tbl : List RecipientRow) (row : RecipientRow) :
    Except SqlError (List RecipientRow) :=
  if tbl.any fun r => r.campaign_address = row.campaign_address ∧ r.wallet = row.wallet then
    .error .uniqueViolation
  else .ok (tbl ++ [row])

/-- Persist a campaign recipient list row by row into an initially
duplicate-free table state for that campaign (here: the empty table). -/
def persistRecipients (campaign : String) (rs : List RecipientInput) :
    Except SqlError (List RecipientRow) :=
  rs.foldlM (fun tbl r => recipientsInsert tbl ⟨campaign, r.wallet, r.amount⟩) []

/-! ## Concrete instances used by witnesses and counterexamples -/

/-- Placeholder field hash standing in for the Poseidon leaf hash in
closed evaluations (the settled claims hold for every hash function). -/
def phLeafHash (a b c : Nat) : Nat := (a + 3 * b + 5 * c) % SCALAR_MODULUS

/-- Placeholder node hash for closed evaluations. -/
def phNodeHash (a b : Nat) : Nat := (a + 7 * b + 11) % SCALAR_MODULUS

/-- A 44-character base58 address whose numeric value (58^44 - 1) exceeds
the field modulus: it cannot be mapped into the hash domain. -/
def overflowWallet : String := "zzzzzzzzzzzzzzzzzzzzzzzzzzzzzzzzzzzzzzzzzzzz"

/-- A small well-formed wallet string used by witnesses. -/
def smallWallet : String := "abc"

/-- Concrete creation inputs used in closed statements: one recipient,
small well-formed wallet, amount 5 base units. -/
def c2Inputs : CreateInputs where
  recipientList := [⟨smallWallet, 5⟩]
  tokenAmount := 5
  vestingEnabled := false
  vestingCliffDays := none
  vestingDurationDays := none
  vestingFrequency := .daily
  tokenType := .sol
  tokenMint := none
  tokenSymbol := none
  tokenDecimals := 9
  campaignId := "cid-1"
  campaignName := "Genesis Drop"
  creator := .ofBase58 "CreatorKey"
  txSig := "sig"
  nowTs := 1700000000

/-- Prover response whose blobs have the wrong byte sizes (1, 1 and 2
bytes instead of 256, 96 and 32). -/
def malformedProofData : ZkProofData := ⟨"ab".data, "cd".data, "abcd".data, 5⟩

/-- A duplicated recipient entry. -/
def dupRecipient : RecipientInput := ⟨smallWallet, 5⟩

/-- Concrete keys for closed packed-account statements. -/
def pid0 : PublicKey := .ofBase58 "Prog"

def keyOne : PublicKey := .ofBase58 "KeyOne"

def keyTwo : PublicKey := .ofBase58 "KeyTwo"

/-- A call sequence with a repeated key. -/
def ps0 : List PublicKey := [keyOne, keyTwo, keyOne]

/-- The internal consistency of a `PackedAccounts` state: the account map
pairs the packed pubkeys with consecutive indices from 0, the next index is
the packed count, and every packed meta is a writable non-signer. -/
def PackedInv (s : PackedAccounts) : Prop :=
  s.accountMap = withIdx (s.packedAccounts.map (·.pubkey)) 0 ∧
  s.nextIndex = s.packedAccounts.length ∧
  ∀ m ∈ s.packedAccounts, m.isSigner = false ∧ m.isWritable = true

/-! ## Theorems -/

/-- The catch handler never calls `markClaimed`. -/
theorem markClaimedCall_not_in_catchEvents (e : List Char) :
    ClaimEvent.markClaimedCall ∉ catchEvents e := by
  cases h : (classifyClaimError e).removedFromEligible <;> simp [catchEvents, h]

/-- C1 counterexample: on a prover response whose nullifier decodes to 2
bytes instead of 32, `handleClaim` does not reject locally with
`MalformedProof`; it issues the ledger instruction with the malformed
data. -/
theorem claimFlow_submits_malformed_sizes :
    (claimHexToBytes malformedProofData.nullifier).length ≠ 32 ∧
      buildClaimInstruction none malformedProofData ≠
        ClaimOutcome.rejectLocal ClaimError.malformedProof ∧
      ∃ i, buildClaimInstruction none malformedProofData = ClaimOutcome.submitInstr i := by
  refine ⟨by decide, by decide, ⟨_, rfl⟩⟩

/-- C1 (amended): the claim flow performs no size validation at all — for
every prover response it decodes each hex blob to a byte array of half the
(0x-stripped) hex length and issues the ledger instruction with those
arrays; the local `MalformedProof` rejection does not exist in the code. -/
theorem claimFlow_no_size_validation :
    (∀ d : ZkProofData,
        buildClaimInstruction none d =
          ClaimOutcome.submitInstr
            (.claimZkSimple (claimHexToBytes d.groth16_proof)
              (claimHexToBytes d.public_inputs) (claimHexToBytes d.nullifier) d.amount)) ∧
      (∀ (m : String) (d : ZkProofData),
        buildClaimInstruction (some m) d = ClaimOutcome.submitInstr (.claimToken d.amount)) ∧
      ∀ hex : List Char, (claimHexToBytes hex).length = (strip0x hex).length / 2 := by
  refine ⟨fun d => rfl, fun m d => rfl, fun hex => ?_⟩
  simp [claimHexToBytes]

/-- C4: when the thrown error message carries one of the already-exists
markers (and is not the user-cancel case, whose branch is checked first),
the catch handler removes the campaign from the eligible list and shows a
warning toast, not an error toast; every rejection without those markers
leaves the eligible list untouched. -/
theorem alreadyExists_treated_as_settled :
    ∀ e : List Char,
      (isAlreadyClaimedError e = true → containsSub e "User rejected".data = false →
        classifyClaimError e = ⟨Severity.warning, true⟩ ∧
          Severity.warning ≠ Severity.errorToast) ∧
      (isAlreadyClaimedError e = false →
        (classifyClaimError e).removedFromEligible = false) := by
  intro e
  constructor
  · intro h1 h2
    unfold isAlreadyClaimedError at h1
    refine ⟨?_, by simp⟩
    simp [classifyClaimError, h1, h2]
  · intro h
    unfold isAlreadyClaimedError at h
    simp only [Bool.or_eq_false_iff] at h
    unfold classifyClaimError
    rw [h.1, h.2]
    split <;> simp

/-- C4 witness: a ledger AlreadyClaimed rejection is reconciled as settled
(warning toast, removed from the list); a generic failure is not. -/
theorem alreadyExists_treated_as_settled_witness :
    classifyClaimError "AlreadyClaimed".data = ⟨Severity.warning, true⟩ ∧
      (classifyClaimError "insufficient funds".data).removedFromEligible = false := by
  exact ⟨((alreadyExists_treated_as_settled "AlreadyClaimed".data).1 (by decide) (by decide)).1,
    (alreadyExists_treated_as_settled "insufficient funds".data).2 (by decide)⟩

/-- C5: the four PDA derivations consume exactly the tagged seeds
`"campaign"`, `"vault"`, `"claim"`, `"nullifier"` followed by the listed
fields, under the pda.ts program id; they are pure functions, so equal
inputs give equal identifiers; and the in-line claim-record derivation in
`handleClaim` coincides with `deriveClaimRecordPDA` whenever the
`VITE_PROGRAM_ID` override is absent (the committed configuration, where
`useShadowDrop` falls back to the same literal program id as pda.ts). -/
theorem pda_derivations_tagged_and_deterministic :
    (∀ a c, deriveCampaignPDA a c =
        findProgramAddress [utf8Bytes "campaign", a.toBuffer, utf8Bytes c] pdaProgramId) ∧
      (∀ a c, deriveVaultPDA a c =
        findProgramAddress [utf8Bytes "vault", a.toBuffer, utf8Bytes c] pdaProgramId) ∧
      (∀ ca cl, deriveClaimRecordPDA ca cl =
        findProgramAddress [utf8Bytes "claim", ca.toBuffer, cl.toBuffer] pdaProgramId) ∧
      (∀ ca n, deriveNullifierRecordPDA ca n =
        findProgramAddress [utf8Bytes "nullifier", ca.toBuffer, n] pdaProgramId) ∧
      (∀ a c a2 c2, a = a2 → c = c2 → deriveCampaignPDA a c = deriveCampaignPDA a2 c2) ∧
      (∀ a c a2 c2, a = a2 → c = c2 → deriveVaultPDA a c = deriveVaultPDA a2 c2) ∧
      (∀ ca cl ca2 cl2, ca = ca2 → cl = cl2 →
        deriveClaimRecordPDA ca cl = deriveClaimRecordPDA ca2 cl2) ∧
      (∀ ca n ca2 n2, ca = ca2 → n = n2 →
        deriveNullifierRecordPDA ca n = deriveNullifierRecordPDA ca2 n2) ∧
      ∀ env ca cl, env = none →
        inlineClaimRecordPDA (useShadowDropProgramId env) ca cl = deriveClaimRecordPDA ca cl := by
  refine ⟨fun a c => rfl, fun a c => rfl, fun ca cl => rfl, fun ca n => rfl,
    ?_, ?_, ?_, ?_, ?_⟩
  · intro a c a2 c2 h1 h2; rw [h1, h2]
  · intro a c a2 c2 h1 h2; rw [h1, h2]
  · intro ca cl ca2 cl2 h1 h2; rw [h1, h2]
  · intro ca n ca2 n2 h1 h2; rw [h1, h2]
  · intro env ca cl h; rw [h]; rfl

/-- C5 witness: at concrete keys and with no environment override, the
in-line derivation equals `deriveClaimRecordPDA`, and equal inputs give the
equal campaign PDA. -/
theorem pda_derivations_tagged_and_deterministic_witness :
    inlineClaimRecordPDA (useShadowDropProgramId none) keyOne keyTwo =
        deriveClaimRecordPDA keyOne keyTwo ∧
      deriveCampaignPDA keyOne "cid-1" = deriveCampaignPDA keyOne "cid-1" := by
  exact ⟨pda_derivations_tagged_and_deterministic.2.2.2.2.2.2.2.2 none keyOne keyTwo rfl,
    pda_derivations_tagged_and_deterministic.2.2.2.2.1 keyOne "cid-1" keyOne "cid-1" rfl rfl⟩

/-- C7: two `handleCreate` runs that agree on everything except the
selected vesting frequency produce the identical ledger create instruction
and the identical persisted campaign record — the frequency is never read
by either construction. -/
theorem vestingFrequency_display_only :
    ∀ (lh : Nat → Nat → Nat → Nat) (nh : Nat → Nat → Nat) (g : Nat → Nat)
      (inp : CreateInputs) (f1 f2 : VestFreq),
      createInstruction lh nh g { inp with vestingFrequency := f1 } =
          createInstruction lh nh g { inp with vestingFrequency := f2 } ∧
        buildCreateCampaignRequest lh nh g { inp with vestingFrequency := f1 } =
          buildCreateCampaignRequest lh nh g { inp with vestingFrequency := f2 } := by
  intro lh nh g inp f1 f2
  exact ⟨rfl, rfl⟩

/-- C8: `markClaimed` appears in the `handleClaim` trace exactly when both
the proof generation and the ledger submission succeeded, and in the
successful trace it comes strictly after the ledger call; a throwing or
cancelled submission leaves the off-chain claimed flag untouched. -/
theorem markClaimed_only_after_ledger_success :
    (∀ (p : Except (List Char) ZkProofData) (l : Except (List Char) String),
        ClaimEvent.markClaimedCall ∈ handleClaimEvents p l ↔
          p.isOk = true ∧ l.isOk = true) ∧
      ∀ (d : ZkProofData) (t : String),
        handleClaimEvents (.ok d) (.ok t) =
          [ClaimEvent.generateProofCall, ClaimEvent.submitLedgerCall,
            ClaimEvent.markClaimedCall, ClaimEvent.removeFromEligibleEv,
            ClaimEvent.setSuccessEv] := by
  constructor
  · intro p l
    cases p with
    | error e =>
      simp [handleClaimEvents, Except.isOk, Except.toBool,
        markClaimedCall_not_in_catchEvents e]
    | ok d =>
      cases l with
      | error e =>
        simp [handleClaimEvents, Except.isOk, Except.toBool,
          markClaimedCall_not_in_catchEvents e]
      | ok t => simp [handleClaimEvents, Except.isOk, Except.toBool]
  · intro d t
    rfl

/-- The hex rendering never produces the character `x`. -/
theorem hexCharOf_ne_x (n : Nat) : hexCharOf n ≠ 'x' := by
  unfold hexCharOf
  rcases Nat.lt_or_ge n 16 with h | h
  · interval_cases n <;> decide
  · rw [List.getD_eq_default]
    · decide
    · simpa [hexAlphabet] using h

/-- Unfolding of `bytesToHex` on a cons cell. -/
theorem bytesToHex_cons (b : Nat) (t : List Nat) :
    bytesToHex (b :: t) = toHexByte b ++ bytesToHex t := rfl

/-- Each rendered byte is a two-character block whose second character is
a hex digit (in particular not `x`). -/
theorem toHexByte_pair (b : Nat) : ∃ x y, toHexByte b = [x, y] ∧ y ≠ 'x' := by
  unfold toHexByte
  split
  · exact ⟨'0', hexCharOf b, rfl, hexCharOf_ne_x b⟩
  · exact ⟨hexCharOf (b / 16), hexCharOf (b % 16), rfl, hexCharOf_ne_x (b % 16)⟩

set_option maxRecDepth 100000 in
/-- Parsing a rendered byte with the `parseInt`-and-store pipeline
recovers the byte. -/
theorem parse_toHexByte_fin :
    ∀ b : Fin 256, jsUint8OfParse (parseIntHexValue? (toHexByte b.val)) = b.val := by
  decide

/-- The 2-character slice at offset `2*i` of the rendered list is the
rendering of byte `i`. -/
theorem bytesToHex_block :
    ∀ (bs : List Nat) (i : Nat), i < bs.length →
      ((bytesToHex bs).drop (2 * i)).take 2 = toHexByte (bs.getD i 0) := by
  intro bs
  induction bs with
  | nil => intro i h; simp at h
  | cons b t ih =>
    intro i hi
    obtain ⟨x, y, hxy, _⟩ := toHexByte_pair b
    cases i with
    | zero =>
      rw [bytesToHex_cons, hxy]
      simpa [List.take] using hxy.symm
    | succ j =>
      have h2 : 2 * (j + 1) = 2 * j + 1 + 1 := by ring
      rw [bytesToHex_cons, hxy, h2]
      simp only [List.cons_append, List.nil_append, List.drop_succ_cons]
      have hj : j < t.length := by simpa using hi
      simpa using ih j hj

/-- Core of the round trip: reading 32 two-character blocks out of the
rendering of a 32-byte array yields the array back. -/
theorem readBlocks_bytesToHex (bs : List Nat) (hl : bs.length = 32)
    (hb : ∀ b ∈ bs, b < 256) :
    ((List.range 32).map fun i =>
      jsUint8OfParse (parseIntHexValue? (((bytesToHex bs).drop (2 * i)).take 2))) = bs := by
  apply List.ext_getElem
  · simp [hl]
  · intro n h1 h2
    have hn : n < 32 := by simpa using h1
    have hn2 : n < bs.length := by omega
    rw [List.getElem_map]
    rw [List.getElem_range]
    rw [bytesToHex_block bs n hn2]
    have hmem : bs.getD n 0 ∈ bs := by
      rw [List.getD_eq_getElem bs 0 hn2]
      exact List.getElem_mem hn2
    have hlt : bs.getD n 0 < 256 := hb _ hmem
    have := parse_toHexByte_fin ⟨bs.getD n 0, hlt⟩
    simp only at this
    rw [this]
    exact List.getD_eq_getElem bs 0 hn2

/-- The rendering of a nonempty byte list never starts with `0x`, so the
`startsWith` normalisation leaves it unchanged. -/
theorem strip0x_bytesToHex (bs : List Nat) (hne : bs ≠ []) :
    strip0x (bytesToHex bs) = bytesToHex bs := by
  cases bs with
  | nil => exact absurd rfl hne
  | cons b t =>
    obtain ⟨x, y, hxy, hy⟩ := toHexByte_pair b
    have htake : (toHexByte b ++ bytesToHex t).take 2 = [x, y] := by rw [hxy]; rfl
    rw [bytesToHex_cons]
    unfold strip0x
    rw [htake]
    have hne2 : ¬ ([x, y] = ['0', 'x']) := by
      intro hc
      have h2 := congrArg (fun l => l.getD 1 'z') hc
      simp only [List.getD] at h2
      exact hy h2
    rw [if_neg hne2]

/-- Stripping an explicit `0x` head. -/
theorem strip0x_prefixed (l : List Char) : strip0x ('0' :: 'x' :: l) = l := by
  unfold strip0x
  rw [if_pos]
  · rfl
  · rfl

/-- C9: `nullifierFromHex` inverts `bytesToHex` on every 32-byte array,
with or without a `0x` prefix on the hex string, and both
`nullifierFromHex` (light.ts) and `hexToBytes` (useShadowDrop.ts) return
exactly 32 bytes whatever the input string is. -/
theorem hex_decode_roundtrip_and_fixed_length :
    (∀ bs : List Nat, bs.length = 32 → (∀ b ∈ bs, b < 256) →
        nullifierFromHex (bytesToHex bs) = bs) ∧
      (∀ bs : List Nat, bs.length = 32 → (∀ b ∈ bs, b < 256) →
        nullifierFromHex ('0' :: 'x' :: bytesToHex bs) = bs) ∧
      (∀ hex : List Char, (nullifierFromHex hex).length = 32) ∧
      ∀ hex : List Char, (hexToBytes32 hex).length = 32 := by
  refine ⟨?_, ?_, ?_, ?_⟩
  · intro bs hl hb
    have hne : bs ≠ [] := by intro he; subst he; simp at hl
    show ((List.range 32).map fun i =>
      jsUint8OfParse (parseIntHexValue? (((strip0x (bytesToHex bs)).drop (2 * i)).take 2))) = bs
    rw [strip0x_bytesToHex bs hne]
    exact readBlocks_bytesToHex bs hl hb
  · intro bs hl hb
    show ((List.range 32).map fun i =>
      jsUint8OfParse
        (parseIntHexValue? (((strip0x ('0' :: 'x' :: bytesToHex bs)).drop (2 * i)).take 2))) = bs
    rw [strip0x_prefixed]
    exact readBlocks_bytesToHex bs hl hb
  · intro hex
    simp [nullifierFromHex]
  · intro hex
    simp [hexToBytes32]

/-- C9 witness: the round trip at the concrete byte array `0, 1, ..., 31`,
bare and with a `0x` prefix. -/
theorem hex_decode_roundtrip_and_fixed_length_witness :
    nullifierFromHex (bytesToHex (List.range 32)) = List.range 32 ∧
      nullifierFromHex ('0' :: 'x' :: bytesToHex (List.range 32)) = List.range 32 :=
  ⟨hex_decode_roundtrip_and_fixed_length.1 (List.range 32) (by simp) (by decide),
   hex_decode_roundtrip_and_fixed_length.2.1 (List.range 32) (by simp) (by decide)⟩

/-- Attaching secrets keeps the list length. -/
theorem attachSecrets_nil_iff (g : Nat → Nat) :
    ∀ (i : Nat) (rs : List RecipientInput), attachSecrets g i rs = [] ↔ rs = [] := by
  intro i rs
  cases rs <;> simp [attachSecrets]

/-- Attaching secrets does not change which amounts are zero. -/
theorem attachSecrets_any_zero (g : Nat → Nat) :
    ∀ (i : Nat) (rs : List RecipientInput),
      (attachSecrets g i rs).any (fun r => r.amount = 0) =
        rs.any (fun r => r.amount = 0) := by
  intro i rs
  induction rs generalizing i with
  | nil => rfl
  | cons r t ih => simp [attachSecrets, ih]

/-- Every enriched entry comes from an input entry with the same wallet
and amount. -/
theorem mem_attachSecrets (g : Nat → Nat) :
    ∀ (i : Nat) (rs : List RecipientInput) (r : RecipientWithSecret),
      r ∈ attachSecrets g i rs → ∃ r0 ∈ rs, r.wallet = r0.wallet ∧ r.amount = r0.amount := by
  intro i rs
  induction rs generalizing i with
  | nil => intro r h; simp [attachSecrets] at h
  | cons r0 t ih =>
    intro r h
    simp only [attachSecrets, List.mem_cons] at h
    rcases h with h | h
    · exact ⟨r0, List.mem_cons_self _ _, by rw [h], by rw [h]⟩
    · obtain ⟨r1, hr1, hw, ha⟩ := ih (i + 1) r h
      exact ⟨r1, List.mem_cons_of_mem _ hr1, hw, ha⟩

/-- The leaf computation succeeds as soon as every address maps into the
field, and produces one leaf per entry. -/
theorem leavesOf?_ok (lh : Nat → Nat → Nat → Nat) :
    ∀ rs : List RecipientWithSecret,
      (∀ r ∈ rs, (addressAsField? r.wallet).isSome = true) →
      ∃ ls, leavesOf? lh rs = some ls ∧ ls.length = rs.length := by
  intro rs
  induction rs with
  | nil => intro _; exact ⟨[], rfl, rfl⟩
  | cons r t ih =>
    intro h
    obtain ⟨a, ha⟩ := Option.isSome_iff_exists.mp (h r (List.mem_cons_self _ _))
    obtain ⟨ls, hls, hlen⟩ := ih fun r0 hr0 => h r0 (List.mem_cons_of_mem _ hr0)
    refine ⟨lh a r.amount r.secret :: ls, ?_, by simp [hlen]⟩
    simp [leavesOf?, ha, hls]

/-- `buildMerkleTree` fails with `InvalidInput` exactly on an empty list
or a zero amount — a condition independent of both hash functions, so
determined before any hashing. -/
theorem buildMerkleTree_invalidInput_iff (lh : Nat → Nat → Nat → Nat)
    (nh : Nat → Nat → Nat) (rs : List RecipientWithSecret) :
    buildMerkleTree lh nh rs = .error .InvalidInput ↔
      rs = [] ∨ ∃ r ∈ rs, r.amount = 0 := by
  unfold buildMerkleTree
  by_cases h1 : rs.isEmpty
  · simp [h1, List.isEmpty_iff.mp h1]
  · rw [if_neg h1]
    by_cases h2 : rs.any (fun r => r.amount = 0)
    · rw [if_pos h2]
      simp only [List.any_eq_true, decide_eq_true_eq] at h2
      simp [h2]
    · rw [if_neg h2]
      have hne : rs ≠ [] := by
        intro he
        subst he
        exact h1 rfl
      have hnz : ¬ ∃ r ∈ rs, r.amount = 0 := by
        intro hc
        apply h2
        simp only [List.any_eq_true, decide_eq_true_eq]
        exact hc
      cases hleaves : leavesOf? lh rs with
      | none => simp [hne, hnz]
      | some ls => simp [hne, hnz]

/-- `buildMerkleTree` succeeds on a nonempty list with positive amounts
and mappable addresses, with one leaf per entry. -/
theorem buildMerkleTree_ok (lh : Nat → Nat → Nat → Nat) (nh : Nat → Nat → Nat)
    (rs : List RecipientWithSecret) (h1 : rs ≠ [])
    (h2 : ∀ r ∈ rs, r.amount ≠ 0)
    (h3 : ∀ r ∈ rs, (addressAsField? r.wallet).isSome = true) :
    ∃ out, buildMerkleTree lh nh rs = .ok out ∧ out.leaves.length = rs.length := by
  obtain ⟨ls, hls, hlen⟩ := leavesOf?_ok lh rs h3
  refine ⟨⟨merkleRootOfLeaves nh ls, ls⟩, ?_, hlen⟩
  unfold buildMerkleTree
  rw [if_neg (by simpa [List.isEmpty_iff] using h1)]
  rw [if_neg ?_, hls]
  simp only [List.any_eq_true, decide_eq_true_eq, not_exists]
  intro r hc
  exact h2 r hc.1 hc.2

/-- Mapping over an `Except` does not change which error it is. -/
theorem exceptMap_eq_error_iff {α β ε : Type} (f : α → β) (x : Except ε α) (e : ε) :
    Except.map f x = .error e ↔ x = .error e := by
  cases x <;> simp [Except.map]

/-- Mapping over an `Except` does not change success. -/
theorem exceptMap_isOk {α β ε : Type} (f : α → β) (x : Except ε α) :
    (Except.map f x).isOk = x.isOk := by
  cases x <;> rfl

/-- Transfer of the zero-amount existence across `attachSecrets`. -/
theorem exists_zero_attachSecrets (g : Nat → Nat) (i : Nat) (rs : List RecipientInput) :
    (∃ r ∈ attachSecrets g i rs, r.amount = 0) ↔ ∃ r ∈ rs, r.amount = 0 := by
  constructor
  · rintro ⟨r, hr, hz⟩
    obtain ⟨r0, hr0, _, ha⟩ := mem_attachSecrets g i rs r hr
    exact ⟨r0, hr0, by rw [← ha]; exact hz⟩
  · intro h
    have h2 : rs.any (fun r => r.amount = 0) = true := by
      simp only [List.any_eq_true, decide_eq_true_eq]
      exact h
    have h3 := attachSecrets_any_zero g i rs
    rw [h2] at h3
    simpa only [List.any_eq_true, decide_eq_true_eq] using h3

/-- C6 (amended): the commitment builder fails with `InvalidInput` exactly
when the recipient list is empty or some amount is zero — a condition
stated without reference to the hash functions, hence decided before any
hashing — and succeeds on every nonempty all-positive list whose addresses
all map into the hash field.  (An unmappable address instead fails with
`HashDomainError`, which is what refutes the unconditional success half of
the original claim.) -/
theorem commitment_invalidInput_iff_and_success :
    ∀ (lh : Nat → Nat → Nat → Nat) (nh : Nat → Nat → Nat) (g : Nat → Nat)
      (rs : List RecipientInput),
      (generateMerkleRoot lh nh g rs = .error .InvalidInput ↔
        rs = [] ∨ ∃ r ∈ rs, r.amount = 0) ∧
      ((rs ≠ [] ∧ (∀ r ∈ rs, r.amount ≠ 0) ∧
          ∀ r ∈ rs, (addressAsField? r.wallet).isSome = true) →
        (generateMerkleRoot lh nh g rs).isOk = true) := by
  intro lh nh g rs
  constructor
  · unfold generateMerkleRoot generateMerkleRootFull
    rw [exceptMap_eq_error_iff]
    rw [buildMerkleTree_invalidInput_iff]
    rw [attachSecrets_nil_iff]
    rw [exists_zero_attachSecrets]
  · rintro ⟨h1, h2, h3⟩
    unfold generateMerkleRoot generateMerkleRootFull
    rw [exceptMap_isOk]
    have hne : attachSecrets g 0 rs ≠ [] := by
      rw [Ne, attachSecrets_nil_iff]
      exact h1
    have hz : ∀ r ∈ attachSecrets g 0 rs, r.amount ≠ 0 := by
      intro r hr
      obtain ⟨r0, hr0, _, ha⟩ := mem_attachSecrets g 0 rs r hr
      rw [ha]
      exact h2 r0 hr0
    have haddr : ∀ r ∈ attachSecrets g 0 rs, (addressAsField? r.wallet).isSome = true := by
      intro r hr
      obtain ⟨r0, hr0, hw, _⟩ := mem_attachSecrets g 0 rs r hr
      rw [hw]
      exact h3 r0 hr0
    obtain ⟨out, hout, _⟩ := buildMerkleTree_ok lh nh _ hne hz haddr
    rw [hout]
    rfl

/-- C6 witness: the builder rejects the empty list with `InvalidInput` and
succeeds on a concrete one-recipient list with a positive amount and a
well-formed address. -/
theorem commitment_invalidInput_iff_and_success_witness :
    generateMerkleRoot phLeafHash phNodeHash (fun _ => 1) [] = .error .InvalidInput ∧
      (generateMerkleRoot phLeafHash phNodeHash (fun _ => 1) [⟨smallWallet, 5⟩]).isOk = true := by
  constructor
  · exact (commitment_invalidInput_iff_and_success phLeafHash phNodeHash
      (fun _ => 1) []).1.mpr (Or.inl rfl)
  · exact (commitment_invalidInput_iff_and_success phLeafHash phNodeHash
      (fun _ => 1) [⟨smallWallet, 5⟩]).2 ⟨by simp, by decide, by decide⟩

/-- C6 counterexample: a nonempty list with a positive amount on which the
commitment builder nevertheless fails — the address value overflows the
hash field, so the result is `HashDomainError`, not success. -/
theorem commitment_hashDomainError_on_overflow_address :
    generateMerkleRoot phLeafHash phNodeHash (fun _ => 1) [⟨overflowWallet, 5⟩] =
        .error .HashDomainError ∧
      ([⟨overflowWallet, 5⟩] : List RecipientInput) ≠ [] ∧
      ∀ r ∈ ([⟨overflowWallet, 5⟩] : List RecipientInput), 0 < r.amount := by
  refine ⟨rfl, by simp, by decide⟩

/-- C2 (amended): the creation-time artifact sent to the off-chain store
carries the hex-encoded 32-byte root and, per recipient, the address and
amount only; the generated secrets, leaf indices and merkle paths are not
part of it (the `CreateCampaignRequest` interface has no such members, and
`generateMerkleRoot` discards them after returning the root bytes). -/
theorem persistedArtifact_root_and_address_amount_only :
    ∀ (lh : Nat → Nat → Nat → Nat) (nh : Nat → Nat → Nat) (g : Nat → Nat)
      (inp : CreateInputs) (req : CreateCampaignRequest),
      buildCreateCampaignRequest lh nh g inp = .ok req →
      req.recipients = inp.recipientList ∧
        ∃ out, generateMerkleRootFull lh nh g inp.recipientList = .ok out ∧
          req.merkle_root = bytesToHex (natToBytesBE 32 out.root) := by
  intro lh nh g inp req h
  unfold buildCreateCampaignRequest at h
  cases hroot : generateMerkleRoot lh nh g inp.recipientList with
  | error e =>
    rw [hroot] at h
    exact absurd h (by simp [Except.map])
  | ok bs =>
    rw [hroot] at h
    simp only [Except.map, Except.ok.injEq] at h
    unfold generateMerkleRoot at hroot
    cases hfull : generateMerkleRootFull lh nh g inp.recipientList with
    | error e =>
      rw [hfull] at hroot
      exact absurd hroot (by simp [Except.map])
    | ok out =>
      rw [hfull] at hroot
      simp only [Except.map, Except.ok.injEq] at hroot
      subst hroot
      subst h
      exact ⟨rfl, out, rfl, rfl⟩

/-- C2 witness: on concrete inputs the persisted recipients field is
exactly the wallet/amount list. -/
theorem persistedArtifact_root_and_address_amount_only_witness :
    (buildCreateCampaignRequest phLeafHash phNodeHash (fun _ => 1) c2Inputs).map
        (fun r => r.recipients) = .ok [⟨smallWallet, 5⟩] := by
  cases heq : buildCreateCampaignRequest phLeafHash phNodeHash (fun _ => 1) c2Inputs with
  | error e =>
    have hok : (buildCreateCampaignRequest phLeafHash phNodeHash (fun _ => 1) c2Inputs).isOk =
        true := rfl
    rw [heq] at hok
    exact absurd hok (by simp [Except.isOk, Except.toBool])
  | ok req =>
    have h := (persistedArtifact_root_and_address_amount_only phLeafHash phNodeHash
      (fun _ => 1) c2Inputs req heq).1
    simp only [Except.map, h]
    rfl

/-- C2 counterexample: the per-recipient part of the persisted artifact is
the same whatever secrets were generated, so no reading of it can return
the generated secret — the artifact does not contain the secrets (and the
original claim fails on the code). -/
theorem persistedArtifact_secret_not_recoverable :
    ¬ ∃ recover : RecipientInput → Nat,
        ∀ g : Nat → Nat,
          (buildCreateCampaignRequest phLeafHash phNodeHash g c2Inputs).map
              (fun r => recover (r.recipients.headD ⟨"", 0⟩)) = .ok (g 0) := by
  rintro ⟨recover, h⟩
  have h1 := h (fun _ => 1)
  have h2 := h (fun _ => 2)
  have e1 : (buildCreateCampaignRequest phLeafHash phNodeHash (fun _ => 1) c2Inputs).map
      (fun r => recover (r.recipients.headD ⟨"", 0⟩)) = .ok (recover ⟨smallWallet, 5⟩) := rfl
  have e2 : (buildCreateCampaignRequest phLeafHash phNodeHash (fun _ => 2) c2Inputs).map
      (fun r => recover (r.recipients.headD ⟨"", 0⟩)) = .ok (recover ⟨smallWallet, 5⟩) := rfl
  rw [e1] at h1
  rw [e2] at h2
  have v1 : recover ⟨smallWallet, 5⟩ = 1 := Except.ok.inj h1
  have v2 : recover ⟨smallWallet, 5⟩ = 2 := Except.ok.inj h2
  rw [v1] at v2
  exact absurd v2 (by decide)

/-- C3 counterexample: persisting a recipient list with a duplicated
`(address, amount)` entry fails on the second row — the backend
`recipients` table declares `UNIQUE(campaign_address, wallet)`, so the
persisted recipient set cannot record the two entries as two independent
rows. -/
theorem duplicateRecipients_persist_fails :
    persistRecipients "camp" [dupRecipient, dupRecipient] = .error .uniqueViolation := rfl

/-- C3 (amended): `handleCreate` does accept both duplicate entries and
commits them to the merkle tree as two independent leaves, but the backend
recipients table rejects the duplicate row under its
`UNIQUE(campaign_address, wallet)` constraint, so the persisted recipient
set never records two independent claims for the pair. -/
theorem duplicateRecipients_two_leaves_but_unique_persist :
    ∀ (a : String) (amt : Nat) (c : String) (lh : Nat → Nat → Nat → Nat)
      (nh : Nat → Nat → Nat) (g : Nat → Nat),
      amt ≠ 0 → (addressAsField? a).isSome = true →
      (∃ out, generateMerkleRootFull lh nh g [⟨a, amt⟩, ⟨a, amt⟩] = .ok out ∧
          out.leaves.length = 2) ∧
        persistRecipients c [⟨a, amt⟩, ⟨a, amt⟩] = .error .uniqueViolation := by
  intro a amt c lh nh g hz haddr
  constructor
  · unfold generateMerkleRootFull
    have hrs : attachSecrets g 0 [⟨a, amt⟩, ⟨a, amt⟩] =
        [⟨a, amt, g 0⟩, ⟨a, amt, g 1⟩] := rfl
    rw [hrs]
    have h := buildMerkleTree_ok lh nh [⟨a, amt, g 0⟩, ⟨a, amt, g 1⟩]
      (by simp) ?_ ?_
    · obtain ⟨out, hout, hlen⟩ := h
      exact ⟨out, hout, by simpa using hlen⟩
    · intro r hr
      rcases List.mem_pair.mp hr with h | h <;> (subst h; exact hz)
    · intro r hr
      rcases List.mem_pair.mp hr with h | h <;> (subst h; exact haddr)
  · unfold persistRecipients
    simp only [List.foldlM]
    have step1 : recipientsInsert [] ⟨c, a, amt⟩ = .ok [⟨c, a, amt⟩] := rfl
    have step2 : recipientsInsert [⟨c, a, amt⟩] ⟨c, a, amt⟩ = .error .uniqueViolation := by
      unfold recipientsInsert
      rw [if_pos]
      simp
    rw [step1]
    show (recipientsInsert [(⟨c, a, amt⟩ : RecipientRow)] ⟨c, a, amt⟩ >>= pure) =
      Except.error SqlError.uniqueViolation
    rw [step2]
    rfl

/-- C3 witness: the amended statement at concrete inputs. -/
theorem duplicateRecipients_two_leaves_but_unique_persist_witness :
    (∃ out, generateMerkleRootFull phLeafHash phNodeHash (fun _ => 1)
        [dupRecipient, dupRecipient] = .ok out ∧ out.leaves.length = 2) ∧
      persistRecipients "other" [dupRecipient, dupRecipient] = .error .uniqueViolation :=
  duplicateRecipients_two_leaves_but_unique_persist smallWallet 5 "other"
    phLeafHash phNodeHash (fun _ => 1) (by decide) (by decide)

/-- Appending one key to an indexed key list appends one pair at the next
index. -/
theorem withIdx_append (l : List PublicKey) (p : PublicKey) :
    ∀ k, withIdx (l ++ [p]) k = withIdx l k ++ [(p, k + l.length)] := by
  induction l with
  | nil => intro k; simp [withIdx]
  | cons q t ih =>
    intro k
    have h : k + 1 + t.length = k + (t.length + 1) := by omega
    calc withIdx ((q :: t) ++ [p]) k
        = (q, k) :: withIdx (t ++ [p]) (k + 1) := rfl
      _ = (q, k) :: (withIdx t (k + 1) ++ [(p, k + 1 + t.length)]) := by rw [ih (k + 1)]
      _ = withIdx (q :: t) k ++ [(p, k + (q :: t).length)] := by rw [h]; rfl

/-- A key is absent from the indexed map exactly when it is absent from
the key list. -/
theorem mapLookup_withIdx_none (p : PublicKey) :
    ∀ (l : List PublicKey) (k : Nat), mapLookup (withIdx l k) p = none ↔ p ∉ l := by
  intro l
  induction l with
  | nil => intro k; simp [withIdx, mapLookup]
  | cons q t ih =>
    intro k
    by_cases hqp : q = p
    · subst hqp
      simp [withIdx, mapLookup]
    · simp only [withIdx, mapLookup, if_neg hqp, ih (k + 1), List.mem_cons]
      constructor
      · intro hn hc
        rcases hc with hc | hc
        · exact hqp hc.symm
        · exact hn hc
      · intro hn
        exact fun hc => hn (Or.inr hc)

/-- A successful lookup in the indexed map points at the key in the
list. -/
theorem mapLookup_withIdx_some (p : PublicKey) :
    ∀ (l : List PublicKey) (k i : Nat), mapLookup (withIdx l k) p = some i →
      k ≤ i ∧ i - k < l.length ∧ l[i - k]? = some p := by
  intro l
  induction l with
  | nil => intro k i h; simp [withIdx, mapLookup] at h
  | cons q t ih =>
    intro k i h
    simp only [withIdx, mapLookup] at h
    by_cases hqp : q = p
    · rw [if_pos hqp] at h
      have hk : k = i := by injection h
      subst hk
      subst hqp
      refine ⟨Nat.le_refl k, by simp, ?_⟩
      simp
    · rw [if_neg hqp] at h
      obtain ⟨h1, h2, h3⟩ := ih (k + 1) i h
      refine ⟨by omega, by simp; omega, ?_⟩
      have hik : i - k = (i - (k + 1)) + 1 := by omega
      rw [hik, List.getElem?_cons_succ]
      exact h3

/-- The fresh `PackedAccounts` state is internally consistent. -/
theorem packedInv_ofProgram (pid : PublicKey) : PackedInv (PackedAccounts.ofProgram pid) :=
  ⟨rfl, rfl, by simp [PackedAccounts.ofProgram]⟩

/-- `insertOrGet` preserves internal consistency. -/
theorem insertOrGet_preservesInv (s : PackedAccounts) (p : PublicKey) (h : PackedInv s) :
    PackedInv (s.insertOrGet p).2 := by
  obtain ⟨hm, hn, hf⟩ := h
  unfold PackedAccounts.insertOrGet
  cases hl : mapLookup s.accountMap p with
  | some i => exact ⟨hm, hn, hf⟩
  | none =>
    refine ⟨?_, ?_, ?_⟩
    · show s.accountMap ++ [(p, s.nextIndex)] =
        withIdx ((s.packedAccounts ++ [AccountMeta.mk p false true]).map (·.pubkey)) 0
      rw [List.map_append]
      show s.accountMap ++ [(p, s.nextIndex)] =
        withIdx (s.packedAccounts.map (·.pubkey) ++ [p]) 0
      rw [withIdx_append, ← hm, hn]
      simp
    · show s.nextIndex + 1 = (s.packedAccounts ++ [AccountMeta.mk p false true]).length
      simp [hn]
    · intro m hm2
      rcases List.mem_append.mp hm2 with h | h
      · exact hf m h
      · have : m = ⟨p, false, true⟩ := by simpa using h
        subst this
        exact ⟨rfl, rfl⟩

/-- `runInserts` preserves internal consistency. -/
theorem runInserts_preservesInv :
    ∀ (ps : List PublicKey) (s : PackedAccounts), PackedInv s → PackedInv (runInserts s ps) := by
  intro ps
  induction ps with
  | nil => intro s h; exact h
  | cons p t ih => intro s h; exact ih _ (insertOrGet_preservesInv s p h)

/-- `runInserts` never touches the system metas. -/
theorem runInserts_systemAccounts :
    ∀ (ps : List PublicKey) (s : PackedAccounts),
      (runInserts s ps).systemAccounts = s.systemAccounts := by
  intro ps
  induction ps with
  | nil => intro s; rfl
  | cons p t ih =>
    intro s
    rw [runInserts, ih]
    unfold PackedAccounts.insertOrGet
    cases mapLookup s.accountMap p <;> rfl

/-- Packed keys accumulate exactly as the first-occurrence fold. -/
theorem runInserts_packedKeys :
    ∀ (ps : List PublicKey) (s : PackedAccounts), PackedInv s →
      (runInserts s ps).packedAccounts.map (·.pubkey) =
        distinctsGo (s.packedAccounts.map (·.pubkey)) ps := by
  intro ps
  induction ps with
  | nil => intro s _; rfl
  | cons p t ih =>
    intro s h
    obtain ⟨hm, hn, hf⟩ := h
    rw [runInserts, distinctsGo]
    by_cases hp : p ∈ s.packedAccounts.map (·.pubkey)
    · rw [if_pos hp]
      have hlk : mapLookup s.accountMap p ≠ none := by
        rw [hm, Ne, mapLookup_withIdx_none]
        simpa using hp
      cases hl : mapLookup s.accountMap p with
      | none => exact absurd hl hlk
      | some i =>
        have hins : (s.insertOrGet p).2 = s := by
          unfold PackedAccounts.insertOrGet
          rw [hl]
        rw [hins]
        exact ih s ⟨hm, hn, hf⟩
    · rw [if_neg hp]
      have hl : mapLookup s.accountMap p = none := by
        rw [hm, mapLookup_withIdx_none]
        simpa using hp
      have hins : (s.insertOrGet p).2 =
          { s with
              accountMap := s.accountMap ++ [(p, s.nextIndex)]
              packedAccounts := s.packedAccounts ++ [⟨p, false, true⟩]
              nextIndex := s.nextIndex + 1 } := by
        unfold PackedAccounts.insertOrGet
        rw [hl]
      rw [hins]
      have hinv2 := insertOrGet_preservesInv s p ⟨hm, hn, hf⟩
      rw [show (s.insertOrGet p).2 =
          { s with
              accountMap := s.accountMap ++ [(p, s.nextIndex)]
              packedAccounts := s.packedAccounts ++ [⟨p, false, true⟩]
              nextIndex := s.nextIndex + 1 } from hins] at hinv2
      rw [ih _ hinv2]
      simp [List.map_append]

/-- The first-occurrence list has no duplicates. -/
theorem distinctsGo_nodup :
    ∀ (ps acc : List PublicKey), acc.Nodup → (distinctsGo acc ps).Nodup := by
  intro ps
  induction ps with
  | nil => intro acc h; exact h
  | cons p t ih =>
    intro acc h
    rw [distinctsGo]
    by_cases hp : p ∈ acc
    · rw [if_pos hp]; exact ih acc h
    · rw [if_neg hp]
      refine ih _ (List.Nodup.append h (List.nodup_singleton p) ?_)
      intro a ha hb
      have : a = p := by simpa using hb
      subst this
      exact hp ha

/-- C10: under every sequence of `insertOrGet` calls on a fresh
`PackedAccounts`, the account map assigns the distinct pubkeys the
consecutive indices 0, 1, 2, ... in first-insertion order; `insertOrGet`
on an already inserted pubkey returns its original index and leaves the
state unchanged, while a fresh pubkey gets the next index and appends
exactly one writable non-signer meta; `toAccountMetas` puts the fixed
system metas first with `packedStart` equal to their count; and every
mapped index `i` addresses the meta of its pubkey at position
`packedStart + i` of the remaining accounts. -/
theorem packedAccounts_indexing_invariant :
    ∀ (pid : PublicKey) (ps : List PublicKey),
      (packedAfter pid ps).accountMap = withIdx (firstOccurrences ps) 0 ∧
      (firstOccurrences ps).Nodup ∧
      (packedAfter pid ps).toAccountMetas.2 = (getLightSystemAccountMetas pid).length ∧
      (∀ (p : PublicKey) (i : Nat),
        mapLookup (packedAfter pid ps).accountMap p = some i →
          (packedAfter pid ps).insertOrGet p = (i, packedAfter pid ps) ∧
            ((packedAfter pid ps).toAccountMetas.1)[(packedAfter pid ps).toAccountMetas.2 + i]? =
              some (AccountMeta.mk p false true)) ∧
      ∀ p : PublicKey,
        mapLookup (packedAfter pid ps).accountMap p = none →
          ((packedAfter pid ps).insertOrGet p).1 = (packedAfter pid ps).packedAccounts.length ∧
            ((packedAfter pid ps).insertOrGet p).2.packedAccounts =
              (packedAfter pid ps).packedAccounts ++ [AccountMeta.mk p false true] := by
  intro pid ps
  obtain ⟨hm, hn, hf⟩ : PackedInv (packedAfter pid ps) :=
    runInserts_preservesInv ps _ (packedInv_ofProgram pid)
  have hkeys : (packedAfter pid ps).packedAccounts.map (·.pubkey) = firstOccurrences ps := by
    have h := runInserts_packedKeys ps (PackedAccounts.ofProgram pid) (packedInv_ofProgram pid)
    simpa [packedAfter, firstOccurrences, PackedAccounts.ofProgram] using h
  have hsys : (packedAfter pid ps).systemAccounts = getLightSystemAccountMetas pid :=
    runInserts_systemAccounts ps _
  refine ⟨?_, ?_, ?_, ?_, ?_⟩
  · rw [hm, hkeys]
  · exact distinctsGo_nodup ps [] (List.nodup_nil)
  · show (packedAfter pid ps).systemAccounts.length = _
    rw [hsys]
  · intro p i hlk
    constructor
    · unfold PackedAccounts.insertOrGet
      rw [hlk]
    · rw [hm] at hlk
      obtain ⟨-, hlt, hget⟩ := mapLookup_withIdx_some p _ 0 i hlk
      rw [Nat.sub_zero] at hlt hget
      rw [List.getElem?_map] at hget
      obtain ⟨m, hmi, hmp⟩ := Option.map_eq_some'.mp hget
      have hmem : m ∈ (packedAfter pid ps).packedAccounts := by
        obtain ⟨hl2, he2⟩ := List.getElem?_eq_some.mp hmi
        exact he2 ▸ List.getElem_mem hl2
      obtain ⟨hsg, hwr⟩ := hf m hmem
      have hmk : m = AccountMeta.mk p false true := by
        cases m
        simp only at hmp hsg hwr
        rw [hmp, hsg, hwr]
      show ((packedAfter pid ps).systemAccounts ++
          (packedAfter pid ps).packedAccounts)[(packedAfter pid ps).systemAccounts.length + i]? =
        some (AccountMeta.mk p false true)
      rw [List.getElem?_append_right (Nat.le_add_right _ i)]
      rw [Nat.add_sub_cancel_left]
      rw [hmi, hmk]
  · intro p hlk
    constructor
    · show ((packedAfter pid ps).insertOrGet p).1 = _
      unfold PackedAccounts.insertOrGet
      rw [hlk]
      exact hn
    · unfold PackedAccounts.insertOrGet
      rw [hlk]

/-- C10 witness: after the call sequence `keyOne, keyTwo, keyOne`, looking
up `keyOne` again returns index 0 without changing the state, and the
remaining accounts address its meta at `packedStart + 0`. -/
theorem packedAccounts_indexing_invariant_witness :
    (packedAfter pid0 ps0).insertOrGet keyOne = (0, packedAfter pid0 ps0) ∧
      ((packedAfter pid0 ps0).toAccountMetas.1)[(packedAfter pid0 ps0).toAccountMetas.2 + 0]? =
        some (AccountMeta.mk keyOne false true) :=
  (packedAccounts_indexing_invariant pid0 ps0).2.2.2.1 keyOne 0 (by rfl)
